import Mathlib

/-!
Shallow embedding of the core logic of `src/app.py` (Pocket Predictive Pilot):
keyword-based categorization (`load_keywords`, `categorize`), month bucketing
(`month_key`), per-category monthly aggregation and alerts (`expenses_summary`),
OLS forecasting (`linear_regression_predict`), and budget upserts (`set_budget`).

Modelling conventions:
* Python `float` amounts and regression arithmetic are embedded as exact
  rationals (`ℚ`); `math.isfinite` is identically true in this model.
* Python `round(y, 2)` is embedded as rounding `100*y` to the nearest integer
  (`round2`); the binary-float tie behaviour of CPython is out of scope.
* SQLite tables with a `TEXT PRIMARY KEY` are embedded as association lists in
  row order; dict iteration order in Python 3 is insertion order, matched by
  the list order here.
* Python strings are Lean `String`s; `str.lower` is modelled on the ASCII
  range (`lowerChar`), matching CPython on ASCII input.
-/

/-- ASCII uppercase test, `65 ≤ c ≤ 90`, as used by `str.lower` on ASCII. -/
def isUpperA (c : Char) : Bool := 65 ≤ c.toNat && c.toNat ≤ 90

/-- One character of Python `str.lower`, restricted to the ASCII range. -/
def lowerChar (c : Char) : Char :=
  if isUpperA c then Char.ofNat (c.toNat + 32) else c

/-- Python `s.lower()` on the ASCII range: lowercase every character. -/
def lowerStr (s : String) : String := String.mk (s.data.map lowerChar)

/-- Python `s.strip()`: drop leading and trailing whitespace. -/
def stripStr (s : String) : String :=
  String.mk (((s.data.dropWhile Char.isWhitespace).reverse.dropWhile
    Char.isWhitespace).reverse)

/-- Python `raw.split(",")` on the character list: split at every comma,
keeping empty pieces (`"".split(",") == [""]`). -/
def splitComma : List Char → List (List Char)
  | [] => [[]]
  | c :: t =>
    if c = ',' then [] :: splitComma t
    else
      match splitComma t with
      | [] => [[c]]
      | a :: rest => (c :: a) :: rest

/-- Python `kw in text` (substring containment) on character lists. -/
def isSub : List Char → List Char → Bool
  | kw, [] => kw.isEmpty
  | kw, c :: t => kw.isPrefixOf (c :: t) || isSub kw t

/-- Embeds `" ".join(filter(None, [merchant, note]))` from `categorize`
(src/app.py:104): join the non-empty fields with one space. -/
def joinParts (merchant note : String) : String :=
  if merchant = "" then note
  else if note = "" then merchant
  else merchant ++ " " ++ note

/-- The match text of `categorize` (src/app.py:104): joined fields,
lowercased. -/
def textOf (merchant note : String) : String := lowerStr (joinParts merchant note)

/-- The keyword configuration: the rows of the `keywords` table in row order,
`(category, comma-separated raw keyword string)`. -/
abbrev KeywordCfg := List (String × String)

/-- One row of `load_keywords` (src/app.py:100):
`[k.strip() for k in raw.split(",") if k.strip()]`. -/
def parseKeywords (raw : String) : List String :=
  ((splitComma raw.data).map (fun l => stripStr (String.mk l))).filter
    (fun k => decide (k ≠ ""))

/-- Embeds `load_keywords` (src/app.py:94-101): parse every row's raw keyword string;
categories keep their row order, keywords are stripped, empties dropped. -/
def load_keywords (cfg : KeywordCfg) : List (String × List String) :=
  cfg.map (fun p => (p.1, parseKeywords p.2))

/-- The category loop of `categorize` (src/app.py:106-110): first category in
index order with a keyword occurring in the text wins; `"Others"` at the end. -/
def catLoop (text : String) : List (String × List String) → String
  | [] => "Others"
  | p :: rest =>
    if p.2.any (fun kw => decide (kw ≠ "") && isSub kw.data text.data) then p.1
    else catLoop text rest

/-- Embeds `categorize` (src/app.py:103-110): lowercase the joined merchant+note text
and scan the loaded keyword index. -/
def categorize (cfg : KeywordCfg) (merchant note : String) : String :=
  catLoop (textOf merchant note) (load_keywords cfg)

/-- Upsert into an association list, as SQLite
`INSERT ... ON CONFLICT(category) DO UPDATE` on a `TEXT PRIMARY KEY` table:
replace the value at the key if present, else append a fresh row. -/
def upsertA {β : Type} (c : String) (v : β) : List (String × β) → List (String × β)
  | [] => [(c, v)]
  | p :: rest => if p.1 = c then (c, v) :: rest else p :: upsertA c v rest

/-- Embeds `update_keywords` (src/app.py:291-300): store the raw keyword string
verbatim for the category (whole-row replacement, no case change). -/
def update_keywords (cfg : KeywordCfg) (c raw : String) : KeywordCfg :=
  upsertA c raw cfg

/-- Embeds `set_budget` (src/app.py:258-267): `float(payload.get('amount') or 0.0)`
(a missing amount becomes `0.0`; a falsy `0` also maps to `0.0`, the same
value) upserted into the budgets table. No sign validation is performed. -/
def set_budget (budgets : List (String × ℚ)) (c : String) (amt : Option ℚ) :
    List (String × ℚ) :=
  upsertA c (amt.getD 0) budgets

/-- Modelled from the spec: `datetime.fromisoformat` is Python-stdlib code
outside this repository. The spec calls the input "an ISO-8601-like
timestamp"; the model accepts a `YYYY-MM-DD` prefix (month `1..12`, day
`1..31`) followed by nothing or by a `T`/space-separated remainder, and
returns the (year, month) pair that `month_key` extracts. -/
def fromisoformat (s : String) : Option (ℕ × ℕ) :=
  match s.data with
  | y1 :: y2 :: y3 :: y4 :: h1 :: m1 :: m2 :: h2 :: d1 :: d2 :: rest =>
    if ([y1, y2, y3, y4].all Char.isDigit) && h1 == '-' &&
       ([m1, m2].all Char.isDigit) && h2 == '-' &&
       ([d1, d2].all Char.isDigit) &&
       (rest.isEmpty || rest.head? == some 'T' || rest.head? == some ' ') then
      let y := [y1, y2, y3, y4].foldl (fun acc c => acc * 10 + (c.toNat - 48)) 0
      let mo := [m1, m2].foldl (fun acc c => acc * 10 + (c.toNat - 48)) 0
      let da := [d1, d2].foldl (fun acc c => acc * 10 + (c.toNat - 48)) 0
      if 1 ≤ mo && mo ≤ 12 && 1 ≤ da && da ≤ 31 then some (y, mo) else none
    else none
  | _ => none

/-- The f-string of `month_key` (src/app.py:117): year unpadded, month
zero-padded to two digits. -/
def fmtMonth (y m : ℕ) : String :=
  toString y ++ "-" ++ (if m < 10 then "0" ++ toString m else toString m)

/-- Embeds `month_key` (src/app.py:112-117): parse the timestamp; on failure fall
back to the current processing time `now` (modelling `datetime.utcnow()`);
format as year-month. -/
def month_key (now : ℕ × ℕ) (date_str : String) : String :=
  match fromisoformat date_str with
  | some p => fmtMonth p.1 p.2
  | none => fmtMonth now.1 now.2

/-- A monthly series as passed to the forecaster: `(month_key, value)` pairs. -/
abbrev Series := List (String × ℚ)

/-- Embeds `ys = [v for (_, v) in monthly_series]` (src/app.py:124). -/
def valuesOf (series : Series) : List ℚ := series.map Prod.snd

/-- Embeds `n = len(ys)` (src/app.py:125). -/
def nOf (series : Series) : ℕ := (valuesOf series).length

/-- Embeds `xs = list(range(1, n+1))` (src/app.py:126), as rationals. -/
def xsOf (series : Series) : List ℚ :=
  (List.range (nOf series)).map (fun (i : ℕ) => (i : ℚ) + 1)

/-- Embeds `sum_x = sum(xs)` (src/app.py:127). -/
def sumX (series : Series) : ℚ := (xsOf series).sum

/-- Embeds `sum_y = sum(ys)` (src/app.py:128). -/
def sumY (series : Series) : ℚ := (valuesOf series).sum

/-- Embeds `sum_xx = sum(x*x for x in xs)` (src/app.py:129). -/
def sumXX (series : Series) : ℚ := ((xsOf series).map (fun x => x * x)).sum

/-- Embeds `sum_xy = sum(x*y for x,y in zip(xs, ys))` (src/app.py:130). -/
def sumXY (series : Series) : ℚ :=
  (((xsOf series).zip (valuesOf series)).map (fun p => p.1 * p.2)).sum

/-- Embeds `denom = n * sum_xx - sum_x * sum_x` (src/app.py:131). -/
def denomOf (series : Series) : ℚ :=
  (nOf series : ℚ) * sumXX series - sumX series * sumX series

/-- Embeds `mean = sum_y / n` (src/app.py:133). -/
def meanOf (series : Series) : ℚ := sumY series / (nOf series : ℚ)

/-- Embeds `slope = (n * sum_xy - sum_x * sum_y) / denom` (src/app.py:135). -/
def slopeOf (series : Series) : ℚ :=
  ((nOf series : ℚ) * sumXY series - sumX series * sumY series) / denomOf series

/-- Embeds `intercept = (sum_y - slope * sum_x) / n` (src/app.py:136). -/
def interceptOf (series : Series) : ℚ :=
  (sumY series - slopeOf series * sumX series) / (nOf series : ℚ)

/-- Python `round(q, 2)` in exact arithmetic: round `100*q` to the nearest
integer and divide back. -/
def round2 (q : ℚ) : ℚ := (round (q * 100) : ℚ) / 100

/-- Embeds `linear_regression_predict` (src/app.py:119-144). The forecast loop
`for k in range(1, months_to_predict+1)` appears as a map over
`List.range months_to_predict` with `x = n + (k+1)`. In this exact-rational
model `isfinite(y)` is identically true, so the clamp condition
`not isfinite(y) or y < 0` reduces to `y < 0`. -/
def linear_regression_predict (monthly_series : Series)
    (months_to_predict : ℕ) : List ℚ :=
  if monthly_series = [] then List.replicate months_to_predict 0
  else if denomOf monthly_series = 0 then
    List.replicate months_to_predict (round2 (meanOf monthly_series))
  else
    (List.range months_to_predict).map (fun (k : ℕ) =>
      let x : ℚ := (nOf monthly_series : ℚ) + ((k : ℚ) + 1)
      let y := interceptOf monthly_series + slopeOf monthly_series * x
      round2 (if y < 0 then 0 else y))

/-- One row of the `expenses` table (src/app.py:49-56); the derived category
is stored at insertion time. -/
structure Expense where
  date : String
  amount : ℚ
  merchant : String
  note : String
  category : String
deriving DecidableEq

/-- Embeds `add_expense` (src/app.py:149-163): apply the payload defaults
(`payload.get('date') or now`, `float(payload.get('amount') or 0.0)`,
`payload.get('merchant') or ''`, `payload.get('note') or ''`; Python `or`
maps the falsy values `None`, `""` and `0` to the default, which for amount
and the text fields coincides with `Option.getD`), derive the category under
the current keyword configuration, and append the row. -/
def add_expense (cfg : KeywordCfg) (st : List Expense) (nowIso : String)
    (date? : Option String) (amount? : Option ℚ) (merchant? note? : Option String) :
    List Expense :=
  let date := match date? with
    | some d => if d = "" then nowIso else d
    | none => nowIso
  let amount := amount?.getD 0
  let merchant := merchant?.getD ""
  let note := note?.getD ""
  st ++ [⟨date, amount, merchant, note, categorize cfg merchant note⟩]

/-- A POST /expenses payload (src/app.py:151-155). -/
structure ExpensePayload where
  date? : Option String
  amount? : Option ℚ
  merchant? : Option String
  note? : Option String

/-- A sequence of `add_expense` calls under one keyword configuration. -/
def ingest (cfg : KeywordCfg) (nowIso : String) (ps : List ExpensePayload) :
    List Expense :=
  ps.foldl (fun st p => add_expense cfg st nowIso p.date? p.amount? p.merchant? p.note?) []

/-- The dict update `d.setdefault(m, 0.0); d[m] += v` on an association list:
add `v` at the key, inserting the key at the end when absent. -/
def bump (m : String) (v : ℚ) : List (String × ℚ) → List (String × ℚ)
  | [] => [(m, v)]
  | p :: rest => if p.1 = m then (p.1, p.2 + v) :: rest else p :: bump m v rest

/-- The outer dict update of the per-category-per-month accumulation
(src/app.py:210-212). -/
def bumpCat (c m : String) (v : ℚ) :
    List (String × List (String × ℚ)) → List (String × List (String × ℚ))
  | [] => [(c, [(m, v)])]
  | p :: rest => if p.1 = c then (p.1, bump m v p.2) :: rest else p :: bumpCat c m v rest

/-- The `per_cat_month` accumulation loop of `expenses_summary`
(src/app.py:205-212): bucket every stored row by its stored category and by
`month_key` of its date, summing amounts. `mk` is the month-key function
(instantiated with `month_key now`). -/
def perCatMonth (mk : String → String) (rows : List Expense) :
    List (String × List (String × ℚ)) :=
  rows.foldl (fun acc r => bumpCat r.category (mk r.date) r.amount acc) []

/-- Modelled from the spec: the spec's SeriesAggregator derives each
transaction's category on demand from merchant+note under the KeywordIndex
current at evaluation time, instead of using the stored category column. -/
def perCatMonthDerived (mk : String → String) (cfg : KeywordCfg)
    (rows : List Expense) : List (String × List (String × ℚ)) :=
  rows.foldl
    (fun acc r => bumpCat (categorize cfg r.merchant r.note) (mk r.date) r.amount acc) []

/-- Embeds `sorted(months.items())` (src/app.py:214): sort the month buckets by key
(keys are unique, so pair order equals key order). -/
def sortedItems (ms : List (String × ℚ)) : List (String × ℚ) :=
  ms.mergeSort (fun a b => a.1 ≤ b.1)

/-- An emitted alert (src/app.py:218). -/
structure Alert where
  category : String
  predicted : ℚ
  budget : ℚ
deriving DecidableEq

/-- Embeds `preds = linear_regression_predict(items, 1); preds[0] if preds else 0.0`
(src/app.py:215-216). -/
def next_pred (ms : List (String × ℚ)) : ℚ :=
  (linear_regression_predict (sortedItems ms) 1).headD 0

/-- First-match association-list lookup, as Python dict membership plus
indexing (`cat in budgets`, `budgets[cat]`). -/
def lookupA {β : Type} (c : String) : List (String × β) → Option β
  | [] => none
  | p :: rest => if p.1 = c then some p.2 else lookupA c rest

/-- The alert loop of `expenses_summary` (src/app.py:213-218): for every
category bucket, forecast one month ahead and alert when a budget exists and
the prediction strictly exceeds it. -/
def alertsOf (pcm : List (String × List (String × ℚ)))
    (budgets : List (String × ℚ)) : List Alert :=
  pcm.filterMap (fun p =>
    match lookupA p.1 budgets with
    | some b => if next_pred p.2 > b then some ⟨p.1, next_pred p.2, b⟩ else none
    | none => none)

/-- Total of all aggregated buckets: the sum over every (category, month)
entry of the accumulated amount. -/
def sumPCM (pcm : List (String × List (String × ℚ))) : ℚ :=
  (pcm.map (fun p => (p.2.map Prod.snd).sum)).sum

/-! ## Helper lemmas -/

theorem round2_nonneg {q : ℚ} (hq : 0 ≤ q) : 0 ≤ round2 q := by
  have h1 : (0 : ℤ) ≤ round (q * 100) := by
    rw [round_eq]
    exact Int.le_floor.mpr (by push_cast; linarith)
  have h2 : (0 : ℚ) ≤ (round (q * 100) : ℚ) := by exact_mod_cast h1
  unfold round2
  positivity

theorem sumY_nonneg {series : Series} (h : ∀ p ∈ series, 0 ≤ p.2) :
    0 ≤ sumY series := by
  apply List.sum_nonneg
  intro x hx
  obtain ⟨p, hp, rfl⟩ := List.mem_map.mp hx
  exact h p hp

theorem meanOf_nonneg {series : Series} (h : ∀ p ∈ series, 0 ≤ p.2) :
    0 ≤ meanOf series := by
  unfold meanOf
  have := sumY_nonneg h
  positivity

theorem sumX_closed (series : Series) :
    sumX series = (nOf series : ℚ) * ((nOf series : ℚ) + 1) / 2 := by
  unfold sumX xsOf
  generalize nOf series = n
  induction n with
  | zero => simp
  | succ n ih =>
    rw [List.range_succ, List.map_append, List.sum_append, ih]
    push_cast
    simp
    ring

theorem sumXX_closed (series : Series) :
    sumXX series =
      (nOf series : ℚ) * ((nOf series : ℚ) + 1) * (2 * (nOf series : ℚ) + 1) / 6 := by
  unfold sumXX xsOf
  rw [List.map_map]
  generalize nOf series = n
  induction n with
  | zero => simp
  | succ n ih =>
    rw [List.range_succ, List.map_append, List.sum_append, ih]
    push_cast
    simp [Function.comp]
    ring

theorem denom_closed (series : Series) :
    denomOf series = (nOf series : ℚ) ^ 2 * ((nOf series : ℚ) ^ 2 - 1) / 12 := by
  unfold denomOf
  rw [sumX_closed, sumXX_closed]
  ring

theorem nOf_pos {series : Series} (h : series ≠ []) : 1 ≤ nOf series := by
  have : 0 < series.length := List.length_pos.mpr h
  unfold nOf valuesOf
  simpa using this

theorem denom_zero_iff {series : Series} (h : series ≠ []) :
    denomOf series = 0 ↔ nOf series = 1 := by
  have hn := nOf_pos h
  rw [denom_closed]
  constructor
  · intro hz
    by_contra hne1
    have h2 : 2 ≤ nOf series := by omega
    have h2q : (2 : ℚ) ≤ (nOf series : ℚ) := by exact_mod_cast h2
    have hnum : (nOf series : ℚ) ^ 2 * ((nOf series : ℚ) ^ 2 - 1) = 0 := by
      field_simp at hz
      linarith [hz]
    have hx2 : (4 : ℚ) ≤ (nOf series : ℚ) ^ 2 := by nlinarith [h2q]
    have hx3 : (12 : ℚ) ≤ (nOf series : ℚ) ^ 2 * ((nOf series : ℚ) ^ 2 - 1) := by
      nlinarith [hx2]
    linarith
  · intro h1
    rw [h1]
    norm_num

/-! ## C1: forecast non-negativity and the clamp -/

/-- C1 counterexample: on the degenerate flat-mean branch no clamp is applied,
so the single-point series with value -5 makes `linear_regression_predict`
return the negative value -5. -/
theorem lrp_flat_mean_negative_cex :
    linear_regression_predict [("2024-01", -5)] 1 = [-5] ∧ ((-5 : ℚ) < 0) := by
  constructor
  · norm_num [linear_regression_predict, denomOf, nOf, valuesOf, xsOf, sumXX,
      sumX, meanOf, sumY, round2, List.range_succ, round_eq]
  · norm_num

/-- C1 (amended): every value returned by `linear_regression_predict` is ≥ 0
provided every input value is ≥ 0; the clamp to 0.0 is applied (before
rounding) only on the regression branch, while the degenerate flat-mean
branch returns the rounded mean unclamped. -/
theorem lrp_nonneg_of_nonneg_inputs (series : Series) (months : ℕ)
    (hpos : ∀ p ∈ series, 0 ≤ p.2) :
    ∀ y ∈ linear_regression_predict series months, 0 ≤ y := by
  intro y hy
  unfold linear_regression_predict at hy
  split at hy
  · rw [List.eq_of_mem_replicate hy]
  · split at hy
    · rw [List.eq_of_mem_replicate hy]
      exact round2_nonneg (meanOf_nonneg hpos)
    · obtain ⟨k, hk, rfl⟩ := List.mem_map.mp hy
      dsimp only
      apply round2_nonneg
      split
      · exact le_rfl
      · next h => exact le_of_not_lt h

/-- C1 witness. -/
theorem lrp_nonneg_of_nonneg_inputs_witness :
    (∀ p ∈ [(("2024-01" : String), (5 : ℚ))], 0 ≤ p.2) ∧
    ∀ y ∈ linear_regression_predict [("2024-01", 5)] 2, 0 ≤ y :=
  ⟨by norm_num, lrp_nonneg_of_nonneg_inputs [("2024-01", 5)] 2 (by norm_num)⟩

/-! ## C5: degenerate-input recovery -/

/-- C5: the empty series yields `months` copies of 0.0 without regression; a
zero denominator (with a non-empty series) yields the rounded flat mean at
every step; the length is non-zero as a rational whenever the series is
non-empty (so the divisions by `n` are by a non-zero divisor, and the
division by `denom` is guarded by the zero test itself); and the denominator
vanishes exactly when n = 1. -/
theorem lrp_degenerate_recovery (series : Series) (months : ℕ) :
    linear_regression_predict [] months = List.replicate months 0 ∧
    (series ≠ [] → denomOf series = 0 →
      linear_regression_predict series months =
        List.replicate months (round2 (meanOf series))) ∧
    (series ≠ [] → ((nOf series : ℚ) ≠ 0 ∧ (denomOf series = 0 ↔ nOf series = 1))) := by
  refine ⟨by simp [linear_regression_predict], fun h1 h2 => ?_, fun h1 => ⟨?_, denom_zero_iff h1⟩⟩
  · unfold linear_regression_predict
    rw [if_neg h1, if_pos h2]
  · have := nOf_pos h1
    exact Nat.cast_ne_zero.mpr (by omega)

/-- C5 witness. -/
theorem lrp_degenerate_recovery_witness :
    linear_regression_predict [("2024-01", (7 : ℚ))] 3 =
      List.replicate 3 (round2 (meanOf [("2024-01", (7 : ℚ))])) :=
  (lrp_degenerate_recovery [("2024-01", 7)] 3).2.1 (by simp)
    (by norm_num [denomOf, nOf, valuesOf, xsOf, sumXX, sumX, List.range_succ])

/-! ## C6: two-point linear trend scenario -/

/-- C6: on the series [(period1, 100), (period2, 200)] the closed-form OLS
slope is 100 and intercept 0, and the horizon-2 forecast is exactly
[300.00, 400.00]. -/
theorem lrp_two_point_trend :
    slopeOf [("2024-01", (100 : ℚ)), ("2024-02", 200)] = 100 ∧
    interceptOf [("2024-01", (100 : ℚ)), ("2024-02", 200)] = 0 ∧
    linear_regression_predict [("2024-01", (100 : ℚ)), ("2024-02", 200)] 2 =
      [300, 400] := by
  refine ⟨?_, ?_, ?_⟩
  · norm_num [slopeOf, denomOf, nOf, valuesOf, xsOf, sumXX, sumX, sumXY, sumY,
      List.range_succ]
  · norm_num [interceptOf, slopeOf, denomOf, nOf, valuesOf, xsOf, sumXX, sumX,
      sumXY, sumY, List.range_succ]
  · norm_num [linear_regression_predict, slopeOf, interceptOf, denomOf, nOf,
      valuesOf, xsOf, sumXX, sumX, sumXY, sumY, round2, List.range_succ, round_eq]
    exact fun h => absurd h (List.cons_ne_nil _ _)

/-! ## C8: month bucketing totality and fallback -/

/-- C8: `month_key` is a total function (it never raises); a parseable
timestamp yields the formatted (year, month) of the parsed instant, so two
timestamps parsing to the same calendar month get the same period key; an
unparsable timestamp is substituted with the current processing time. -/
theorem month_key_total_spec (s : String) (now : ℕ × ℕ) (y m : ℕ) :
    (fromisoformat s = some (y, m) → month_key now s = fmtMonth y m) ∧
    (fromisoformat s = none → month_key now s = fmtMonth now.1 now.2) ∧
    (∀ s2, fromisoformat s = some (y, m) → fromisoformat s2 = some (y, m) →
      month_key now s = month_key now s2) := by
  refine ⟨fun h => ?_, fun h => ?_, fun s2 h h2 => ?_⟩
  · unfold month_key
    rw [h]
  · unfold month_key
    rw [h]
  · unfold month_key
    rw [h, h2]

/-- C8 witness. -/
theorem month_key_total_spec_witness :
    (fromisoformat "2024-03-15" = some (2024, 3) ∧
      month_key (1999, 7) "2024-03-15" = fmtMonth 2024 3) ∧
    (fromisoformat "not-a-date" = none ∧
      month_key (1999, 7) "not-a-date" = fmtMonth 1999 7) :=
  ⟨⟨by decide, (month_key_total_spec "2024-03-15" (1999, 7) 2024 3).1 (by decide)⟩,
   ⟨by decide, (month_key_total_spec "not-a-date" (1999, 7) 2024 3).2.1 (by decide)⟩⟩

/-! ## C3: conservation of amounts under aggregation -/

theorem sum_bump (m : String) (v : ℚ) (ms : List (String × ℚ)) :
    ((bump m v ms).map Prod.snd).sum = (ms.map Prod.snd).sum + v := by
  induction ms with
  | nil => simp [bump]
  | cons p rest ih =>
    unfold bump
    split
    · simp
      ring
    · simp [ih]
      ring

theorem sumPCM_bumpCat (c m : String) (v : ℚ)
    (pcm : List (String × List (String × ℚ))) :
    sumPCM (bumpCat c m v pcm) = sumPCM pcm + v := by
  induction pcm with
  | nil => simp [bumpCat, sumPCM, bump]
  | cons p rest ih =>
    unfold bumpCat
    split
    · simp [sumPCM, sum_bump]
      ring
    · simp [sumPCM] at ih ⊢
      rw [ih]
      ring

theorem sumPCM_fold (mk : String → String) (rows : List Expense) :
    ∀ acc, sumPCM (rows.foldl
        (fun acc r => bumpCat r.category (mk r.date) r.amount acc) acc) =
      sumPCM acc + (rows.map Expense.amount).sum := by
  induction rows with
  | nil => simp
  | cons r rest ih =>
    intro acc
    simp only [List.foldl_cons, List.map_cons, List.sum_cons]
    rw [ih, sumPCM_bumpCat]
    ring

/-- C3: conservation — the sum over all (category, month) buckets built by
the summary aggregation equals the sum of all stored transaction amounts, for
every transaction set; no row is dropped for a malformed date (`month_key` is
total) or an unmatched category (the stored category is used as-is). -/
theorem perCatMonth_conservation (now : ℕ × ℕ) (rows : List Expense) :
    sumPCM (perCatMonth (month_key now) rows) =
      (rows.map Expense.amount).sum := by
  unfold perCatMonth
  rw [sumPCM_fold]
  simp [sumPCM]

/-! ## C2: stored category versus on-demand derivation -/

theorem ingest_category (cfg : KeywordCfg) (nowIso : String)
    (ps : List ExpensePayload) :
    ∀ r ∈ ingest cfg nowIso ps, r.category = categorize cfg r.merchant r.note := by
  unfold ingest
  suffices h : ∀ st, (∀ r ∈ st, r.category = categorize cfg r.merchant r.note) →
      ∀ r ∈ ps.foldl
        (fun st p => add_expense cfg st nowIso p.date? p.amount? p.merchant? p.note?) st,
      r.category = categorize cfg r.merchant r.note by
    exact h [] (by simp)
  induction ps with
  | nil => exact fun st hst => hst
  | cons p rest ih =>
    intro st hst
    simp only [List.foldl_cons]
    apply ih
    intro r hr
    unfold add_expense at hr
    rcases List.mem_append.mp hr with h | h
    · exact hst r h
    · rw [List.mem_singleton.mp h]

theorem perCatMonth_foldl_congr (mk : String → String) (f g : Expense → String)
    (rows : List Expense) (hfg : ∀ r ∈ rows, f r = g r) :
    ∀ acc, rows.foldl (fun acc r => bumpCat (f r) (mk r.date) r.amount acc) acc =
      rows.foldl (fun acc r => bumpCat (g r) (mk r.date) r.amount acc) acc := by
  induction rows with
  | nil => simp
  | cons r rest ih =>
    intro acc
    simp only [List.foldl_cons]
    rw [hfg r (by simp)]
    exact ih (fun r hr => hfg r (by simp [hr])) _

/-- C2 counterexample: ingest one expense with merchant "Starbucks" under a
configuration that maps the keyword "starbucks" to "Food", then clear the
keywords of "Food". The summary aggregation still groups the stored row under
"Food", while re-deriving the category under the now-current index would
group it under "Others" — the grouping is not reproducible from the current
keyword configuration. -/
theorem perCatMonth_stale_category_cex :
    perCatMonth (month_key (1999, 7))
        (add_expense [("Food", "starbucks"), ("Others", "")] [] "2024-05-01"
          (some "2024-01-05") (some 10) (some "Starbucks") none) ≠
      perCatMonthDerived (month_key (1999, 7))
        (update_keywords [("Food", "starbucks"), ("Others", "")] "Food" "")
        (add_expense [("Food", "starbucks"), ("Others", "")] [] "2024-05-01"
          (some "2024-01-05") (some 10) (some "Starbucks") none) := by
  decide

/-- C2 (amended): the grouping used by the summary equals the grouping by
re-derived categories only for the keyword configuration current at ingestion
time — every ingested row stores `categorize` of its merchant and note under
the configuration at insertion, so with an unchanged configuration the stored
grouping and the derived grouping coincide. -/
theorem perCatMonth_derived_at_ingest (cfg : KeywordCfg) (nowIso : String)
    (ps : List ExpensePayload) (mk : String → String) :
    perCatMonth mk (ingest cfg nowIso ps) =
      perCatMonthDerived mk cfg (ingest cfg nowIso ps) := by
  unfold perCatMonth perCatMonthDerived
  exact perCatMonth_foldl_congr mk _ _ (ingest cfg nowIso ps)
    (ingest_category cfg nowIso ps) []

/-! ## C4: first-match categorization with fallback -/

theorem dropWhile_head_false {α : Type} (p : α → Bool) (l : List α) (c : α)
    (t : List α) (h : l.dropWhile p = c :: t) : p c = false := by
  induction l with
  | nil => simp at h
  | cons a l ih =>
    rw [List.dropWhile_cons] at h
    split at h
    · exact ih h
    · next hp =>
      injection h with h1 h2
      rw [← h1]
      exact eq_false_of_ne_true hp

theorem stripStr_eq_empty_of_all_space (s : String)
    (h : ∀ c ∈ (stripStr s).data, c.isWhitespace = true) : stripStr s = "" := by
  by_contra hne
  have hY : (s.data.dropWhile Char.isWhitespace).reverse.dropWhile
      Char.isWhitespace ≠ [] := by
    intro h0
    apply hne
    unfold stripStr
    rw [h0]
    rfl
  obtain ⟨c, t, hct⟩ := List.exists_cons_of_ne_nil hY
  have hcf : Char.isWhitespace c = false := dropWhile_head_false _ _ _ _ hct
  have hcm : c ∈ (stripStr s).data := by
    show c ∈ ((s.data.dropWhile Char.isWhitespace).reverse.dropWhile
      Char.isWhitespace).reverse
    rw [hct]
    simp
  have hcw := h c hcm
  rw [hcf] at hcw
  exact Bool.false_ne_true hcw

theorem parseKeywords_sound (raw : String) :
    ∀ kw ∈ parseKeywords raw, kw ≠ "" ∧ ¬ ∀ c ∈ kw.data, c.isWhitespace = true := by
  intro kw hkw
  unfold parseKeywords at hkw
  obtain ⟨hmem, hne⟩ := List.mem_filter.mp hkw
  have hne2 : kw ≠ "" := of_decide_eq_true hne
  refine ⟨hne2, fun hall => ?_⟩
  obtain ⟨l, -, rfl⟩ := List.mem_map.mp hmem
  exact hne2 (stripStr_eq_empty_of_all_space _ hall)

theorem any_drop_empty_guard (ks : List String) (f : String → Bool)
    (h : ∀ kw ∈ ks, kw ≠ "") :
    ks.any (fun kw => decide (kw ≠ "") && f kw) = ks.any f := by
  induction ks with
  | nil => rfl
  | cons k rest ih =>
    simp only [List.any_cons]
    rw [decide_eq_true (h k (by simp)), Bool.true_and,
      ih (fun kw hkw => h kw (by simp [hkw]))]

theorem catLoop_eq_find (text : String) (L : List (String × List String))
    (h : ∀ p ∈ L, ∀ kw ∈ p.2, kw ≠ "") :
    catLoop text L =
      ((L.find? (fun p =>
          p.2.any (fun kw => isSub kw.data text.data))).map Prod.fst).getD
        "Others" := by
  induction L with
  | nil => rfl
  | cons p rest ih =>
    unfold catLoop
    rw [List.find?_cons]
    rw [any_drop_empty_guard p.2 _ (h p (by simp))]
    rcases hb : p.2.any (fun kw => isSub kw.data text.data) with _ | _
    · simp only [hb, Bool.false_eq_true, if_false]
      exact ih (fun q hq => h q (by simp [hq]))
    · simp [hb]

/-- C4: `categorize` returns the first category, in the keyword index's row
(insertion) order, one of whose loaded keywords is a substring of the
lowercased joined merchant+note text, and the fallback "Others" when no
category matches; all loaded keywords are non-empty and not whitespace-only
(empty and whitespace-only raw entries are discarded on load and so never
match). -/
theorem categorize_first_match (cfg : KeywordCfg) (merchant note : String) :
    categorize cfg merchant note =
      (((load_keywords cfg).find? (fun p =>
          p.2.any (fun kw => isSub kw.data (textOf merchant note).data))).map
        Prod.fst).getD "Others" ∧
    ∀ p ∈ load_keywords cfg, ∀ kw ∈ p.2,
      kw ≠ "" ∧ ¬ ∀ c ∈ kw.data, c.isWhitespace = true := by
  have hsound : ∀ p ∈ load_keywords cfg, ∀ kw ∈ p.2,
      kw ≠ "" ∧ ¬ ∀ c ∈ kw.data, c.isWhitespace = true := by
    intro p hp kw hkw
    unfold load_keywords at hp
    obtain ⟨q, -, rfl⟩ := List.mem_map.mp hp
    exact parseKeywords_sound q.2 kw hkw
  exact ⟨catLoop_eq_find _ _ (fun p hp kw hkw => (hsound p hp kw hkw).1), hsound⟩

/-- C4 witness. -/
theorem categorize_first_match_witness :
    (("Food", ["starbucks"]) ∈ load_keywords [("Food", "starbucks, ")] ∧
      "starbucks" ∈ ["starbucks"] ∧
      "starbucks" ≠ "" ∧ ¬ ∀ c ∈ "starbucks".data, c.isWhitespace = true) ∧
    categorize [("Food", "starbucks, ")] "Starbucks Coffee" "" =
      ((((load_keywords [("Food", "starbucks, ")]).find? (fun p =>
          p.2.any (fun kw =>
            isSub kw.data (textOf "Starbucks Coffee" "").data))).map
        Prod.fst).getD "Others") :=
  ⟨⟨by decide, by decide,
    (categorize_first_match [("Food", "starbucks, ")] "Starbucks Coffee" "").2
      ("Food", ["starbucks"]) (by decide) "starbucks" (by decide)⟩,
   (categorize_first_match [("Food", "starbucks, ")] "Starbucks Coffee" "").1⟩

/-! ## C10: case handling of texts versus keywords -/

theorem toNat_ofNat_valid {n : ℕ} (h : n.isValidChar) : (Char.ofNat n).toNat = n := by
  unfold Char.ofNat
  rw [dif_pos h]
  rfl

theorem isUpperA_lowerChar (c : Char) : isUpperA (lowerChar c) = false := by
  unfold lowerChar
  split
  · next h =>
    unfold isUpperA at h ⊢
    have h1 : 65 ≤ c.toNat ∧ c.toNat ≤ 90 := by simpa using h
    have hv : (c.toNat + 32).isValidChar := Or.inl (by omega)
    rw [toNat_ofNat_valid hv]
    simp
    omega
  · next h =>
    unfold isUpperA at h ⊢
    simpa using h

theorem textOf_no_upper (merchant note : String) :
    ∀ c ∈ (textOf merchant note).data, isUpperA c = false := by
  intro c hc
  obtain ⟨c0, -, rfl⟩ := List.mem_map.mp hc
  exact isUpperA_lowerChar c0

theorem isPrefixOf_mem {α : Type} [BEq α] [LawfulBEq α] (l t : List α)
    (h : l.isPrefixOf t = true) : ∀ c ∈ l, c ∈ t := by
  induction l generalizing t with
  | nil => simp
  | cons a l ih =>
    cases t with
    | nil => simp [List.isPrefixOf] at h
    | cons b t =>
      simp only [List.isPrefixOf, Bool.and_eq_true, beq_iff_eq] at h
      obtain ⟨rfl, h2⟩ := h
      intro c hc
      rcases List.mem_cons.mp hc with rfl | hc2
      · exact List.mem_cons_self _ _
      · exact List.mem_cons_of_mem _ (ih t h2 c hc2)

theorem isSub_mem (kw t : List Char) (h : isSub kw t = true) :
    ∀ c ∈ kw, c ∈ t := by
  induction t with
  | nil =>
    unfold isSub at h
    rw [List.isEmpty_iff] at h
    subst h
    simp
  | cons b t ih =>
    unfold isSub at h
    rcases Bool.or_eq_true_iff.mp h with h1 | h2
    · exact isPrefixOf_mem _ _ h1
    · exact fun c hc => List.mem_cons_of_mem _ (ih h2 c hc)

theorem isSub_false_of_upper (kw t : List Char)
    (hkw : ∃ c ∈ kw, isUpperA c = true) (ht : ∀ c ∈ t, isUpperA c = false) :
    isSub kw t = false := by
  rcases hs : isSub kw t with _ | _
  · rfl
  · obtain ⟨c, hc, hcu⟩ := hkw
    have hfalse := ht c (isSub_mem _ _ hs c hc)
    rw [hfalse] at hcu
    exact absurd hcu (by simp)

theorem mk_eq_empty_iff (l : List Char) : String.mk l = "" ↔ l = [] := by
  constructor
  · intro h
    exact congrArg String.data h
  · rintro rfl
    rfl

theorem eq_empty_iff_of_lower_eq {a b : String} (h : lowerStr a = lowerStr b) :
    (a = "" ↔ b = "") := by
  have hl : a.data.length = b.data.length := by
    have h3 := congrArg (fun t => t.data.length) h
    simpa [lowerStr] using h3
  cases a with
  | mk la =>
    cases b with
    | mk lb =>
      rw [mk_eq_empty_iff, mk_eq_empty_iff]
      constructor
      · rintro rfl
        exact List.eq_nil_of_length_eq_zero (by simpa using hl.symm)
      · rintro rfl
        exact List.eq_nil_of_length_eq_zero (by simpa using hl)

theorem lowerStr_append (a b : String) :
    lowerStr (a ++ b) = lowerStr a ++ lowerStr b := by
  cases a with
  | mk la =>
    cases b with
    | mk lb =>
      show String.mk ((la ++ lb).map lowerChar) =
        String.mk (la.map lowerChar ++ lb.map lowerChar)
      rw [List.map_append]

theorem textOf_congr (m n m2 n2 : String) (hm : lowerStr m2 = lowerStr m)
    (hn : lowerStr n2 = lowerStr n) : textOf m2 n2 = textOf m n := by
  have hme := eq_empty_iff_of_lower_eq hm
  have hne := eq_empty_iff_of_lower_eq hn
  unfold textOf joinParts
  by_cases h1 : m = ""
  · rw [if_pos h1, if_pos (hme.mpr h1)]
    exact hn
  · rw [if_neg h1, if_neg (fun hh => h1 (hme.mp hh))]
    by_cases h2 : n = ""
    · rw [if_pos h2, if_pos (hne.mpr h2)]
      exact hm
    · rw [if_neg h2, if_neg (fun hh => h2 (hne.mp hh))]
      rw [lowerStr_append, lowerStr_append, lowerStr_append, lowerStr_append,
        hm, hn]

/-- C10: `categorize` lowercases the combined merchant+note text but matches
keywords verbatim as stored, so its result is invariant under changing the
letter case of merchant and note, while a keyword containing an ASCII
uppercase character is never a substring of any lowercased transaction
text. -/
theorem categorize_case_behaviour (cfg : KeywordCfg) (m n m2 n2 : String) :
    (lowerStr m2 = lowerStr m → lowerStr n2 = lowerStr n →
      categorize cfg m2 n2 = categorize cfg m n) ∧
    (∀ (kw merchant note : String), (∃ c ∈ kw.data, isUpperA c = true) →
      isSub kw.data (textOf merchant note).data = false) := by
  constructor
  · intro hm hn
    unfold categorize
    rw [textOf_congr m n m2 n2 hm hn]
  · intro kw merchant note hkw
    exact isSub_false_of_upper _ _ hkw (textOf_no_upper merchant note)

/-- C10 witness. -/
theorem categorize_case_behaviour_witness :
    (lowerStr "STARBUCKS" = lowerStr "starbucks" ∧
      categorize [("Food", "starbucks")] "STARBUCKS" "" =
        categorize [("Food", "starbucks")] "starbucks" "") ∧
    ((∃ c ∈ "Uber".data, isUpperA c = true) ∧
      isSub "Uber".data (textOf "uber ride" "").data = false) :=
  ⟨⟨by decide,
    (categorize_case_behaviour [("Food", "starbucks")] "starbucks" ""
      "STARBUCKS" "").1 (by decide) rfl⟩,
   ⟨by decide,
    (categorize_case_behaviour [("Food", "starbucks")] "starbucks" ""
      "STARBUCKS" "").2 "Uber" "uber ride" "" (by decide)⟩⟩

/-! ## C7: alert emission criterion -/

theorem bump_ne_nil (m : String) (v : ℚ) (ms : List (String × ℚ)) :
    bump m v ms ≠ [] := by
  cases ms with
  | nil => simp [bump]
  | cons p rest =>
    unfold bump
    split <;> simp

theorem bumpCat_ne_nil (c m : String) (v : ℚ)
    (l : List (String × List (String × ℚ))) (hl : ∀ q ∈ l, q.2 ≠ []) :
    ∀ p ∈ bumpCat c m v l, p.2 ≠ [] := by
  induction l with
  | nil =>
    intro p hp
    rw [List.mem_singleton.mp hp]
    simp
  | cons q rest ih =>
    intro p hp
    unfold bumpCat at hp
    split at hp
    · rcases List.mem_cons.mp hp with rfl | h
      · exact bump_ne_nil _ _ _
      · exact hl p (List.mem_cons_of_mem _ h)
    · rcases List.mem_cons.mp hp with rfl | h
      · exact hl p (by simp)
      · exact ih (fun r hr => hl r (by simp [hr])) p h

theorem keys_bumpCat (c m : String) (v : ℚ)
    (l : List (String × List (String × ℚ))) :
    (bumpCat c m v l).map Prod.fst =
      if c ∈ l.map Prod.fst then l.map Prod.fst
      else l.map Prod.fst ++ [c] := by
  induction l with
  | nil => simp [bumpCat]
  | cons q rest ih =>
    unfold bumpCat
    split
    · next hqc =>
      simp [hqc]
    · next hqc =>
      simp only [List.map_cons, ih]
      by_cases hc : c ∈ rest.map Prod.fst
      · rw [if_pos hc, if_pos (by simp [hc])]
      · rw [if_neg hc, if_neg (by
          simp only [List.mem_cons]
          rintro (h | h)
          · exact hqc h.symm
          · exact hc h)]
        simp

theorem nodup_keys_bumpCat (c m : String) (v : ℚ)
    (l : List (String × List (String × ℚ)))
    (h : (l.map Prod.fst).Nodup) :
    ((bumpCat c m v l).map Prod.fst).Nodup := by
  rw [keys_bumpCat]
  split
  · exact h
  · next hc =>
    refine List.Nodup.append h (List.nodup_singleton c) ?_
    intro a ha hb
    rw [List.mem_singleton] at hb
    subst hb
    exact hc ha

theorem nodup_keys_perCatMonth (mk : String → String) (rows : List Expense) :
    ((perCatMonth mk rows).map Prod.fst).Nodup := by
  unfold perCatMonth
  suffices h : ∀ acc, (acc.map Prod.fst).Nodup →
      ((rows.foldl (fun acc r => bumpCat r.category (mk r.date) r.amount acc)
        acc).map Prod.fst).Nodup by
    exact h [] (by simp)
  induction rows with
  | nil => exact fun acc hacc => hacc
  | cons r rest ih =>
    intro acc hacc
    simp only [List.foldl_cons]
    exact ih _ (nodup_keys_bumpCat _ _ _ _ hacc)

theorem perCatMonth_ne_nil (mk : String → String) (rows : List Expense) :
    ∀ p ∈ perCatMonth mk rows, p.2 ≠ [] := by
  unfold perCatMonth
  suffices h : ∀ acc, (∀ q ∈ acc, q.2 ≠ []) →
      ∀ p ∈ rows.foldl (fun acc r => bumpCat r.category (mk r.date) r.amount acc)
        acc, p.2 ≠ [] by
    exact h [] (by simp)
  induction rows with
  | nil => exact fun acc hacc => hacc
  | cons r rest ih =>
    intro acc hacc
    simp only [List.foldl_cons]
    exact ih _ (bumpCat_ne_nil _ _ _ _ hacc)

theorem lookupA_mem {β : Type} (c : String) (l : List (String × β)) (v : β)
    (h : lookupA c l = some v) : (c, v) ∈ l := by
  induction l with
  | nil => simp [lookupA] at h
  | cons p rest ih =>
    unfold lookupA at h
    split at h
    · next hp =>
      injection h with h1
      rcases p with ⟨p1, p2⟩
      cases hp
      cases h1
      exact List.mem_cons_self _ _
    · exact List.mem_cons_of_mem _ (ih h)

theorem mem_lookupA {β : Type} (c : String) (l : List (String × β)) (v : β)
    (hn : (l.map Prod.fst).Nodup) (h : (c, v) ∈ l) : lookupA c l = some v := by
  induction l with
  | nil => simp at h
  | cons p rest ih =>
    rcases List.mem_cons.mp h with heq | h2
    · rw [← heq]
      simp [lookupA]
    · rw [List.map_cons] at hn
      obtain ⟨hnotin, hrest⟩ := List.nodup_cons.mp hn
      have hp1 : p.1 ≠ c := by
        intro hpc
        apply hnotin
        rw [hpc]
        exact List.mem_map.mpr ⟨(c, v), h2, rfl⟩
      unfold lookupA
      rw [if_neg hp1]
      exact ih hrest h2

/-- C7: an alert for (category, predicted, budget) is emitted by the summary
computation if and only if the category has a (necessarily non-empty)
aggregated monthly series, a budget entry under exactly that category key,
and the horizon-1 forecast of its series strictly exceeds the budget amount;
categories without a series never alert even if budgeted, and categories
without a budget never alert regardless of predicted spend. -/
theorem alerts_characterization (now : ℕ × ℕ) (rows : List Expense)
    (budgets : List (String × ℚ)) (a : Alert) :
    a ∈ alertsOf (perCatMonth (month_key now) rows) budgets ↔
      ∃ ms, lookupA a.category (perCatMonth (month_key now) rows) = some ms ∧
        ms ≠ [] ∧ lookupA a.category budgets = some a.budget ∧
        a.predicted = next_pred ms ∧ a.budget < a.predicted := by
  obtain ⟨ac, ap, ab⟩ := a
  have hnodup := nodup_keys_perCatMonth (month_key now) rows
  have hnil := perCatMonth_ne_nil (month_key now) rows
  unfold alertsOf
  rw [List.mem_filterMap]
  constructor
  · rintro ⟨p, hp, hf⟩
    split at hf
    · next b hb =>
      split at hf
      · next hgt =>
        injection hf with hf1
        injection hf1 with e1 e2 e3
        subst e1
        subst e2
        subst e3
        exact ⟨p.2, mem_lookupA _ _ _ hnodup hp, hnil p hp, hb, rfl, hgt⟩
      · exact absurd hf (by simp)
    · exact absurd hf (by simp)
  · rintro ⟨ms, h1, h2, h3, h4, h5⟩
    refine ⟨(ac, ms), lookupA_mem _ _ _ h1, ?_⟩
    have h5b : next_pred ms > ab := h4 ▸ h5
    show (match lookupA ac budgets with
      | some b =>
        if next_pred ms > b then some (Alert.mk ac (next_pred ms) b) else none
      | none => none) = some (Alert.mk ac ap ab)
    rw [h3]
    show (if next_pred ms > ab then some (Alert.mk ac (next_pred ms) ab)
      else none) = some (Alert.mk ac ap ab)
    rw [if_pos h5b, ← h4]

/-! ## C9: budget upsert behaviour -/

theorem lookupA_upsertA_self {β : Type} (c : String) (v : β)
    (l : List (String × β)) : lookupA c (upsertA c v l) = some v := by
  induction l with
  | nil => simp [upsertA, lookupA]
  | cons p rest ih =>
    unfold upsertA
    split
    · simp [lookupA]
    · next hp =>
      unfold lookupA
      rw [if_neg hp]
      exact ih

theorem lookupA_upsertA_other {β : Type} (c c2 : String) (v : β)
    (l : List (String × β)) (h : c2 ≠ c) :
    lookupA c2 (upsertA c v l) = lookupA c2 l := by
  induction l with
  | nil =>
    simp only [upsertA, lookupA]
    rw [if_neg (fun hh => h hh.symm)]
  | cons p rest ih =>
    unfold upsertA
    split
    · next hp =>
      unfold lookupA
      rw [if_neg (fun hh => h hh.symm), if_neg (by rw [hp]; exact fun hh => h hh.symm)]
    · unfold lookupA
      split
      · rfl
      · exact ih

theorem keys_upsertA {β : Type} (c : String) (v : β) (l : List (String × β)) :
    (upsertA c v l).map Prod.fst =
      if c ∈ l.map Prod.fst then l.map Prod.fst else l.map Prod.fst ++ [c] := by
  induction l with
  | nil => simp [upsertA]
  | cons q rest ih =>
    unfold upsertA
    split
    · next hqc =>
      simp [hqc]
    · next hqc =>
      simp only [List.map_cons, ih]
      by_cases hc : c ∈ rest.map Prod.fst
      · rw [if_pos hc, if_pos (by simp [hc])]
      · rw [if_neg hc, if_neg (by
          simp only [List.mem_cons]
          rintro (h | h)
          · exact hqc h.symm
          · exact hc h)]
        simp

theorem nodup_keys_upsertA {β : Type} (c : String) (v : β)
    (l : List (String × β)) (h : (l.map Prod.fst).Nodup) :
    ((upsertA c v l).map Prod.fst).Nodup := by
  rw [keys_upsertA]
  split
  · exact h
  · next hc =>
    refine List.Nodup.append h (List.nodup_singleton c) ?_
    intro a ha hb
    rw [List.mem_singleton] at hb
    subst hb
    exact hc ha

theorem mem_upsertA {β : Type} (c : String) (v : β) (l : List (String × β))
    (p : String × β) (hp : p ∈ upsertA c v l) : p = (c, v) ∨ p ∈ l := by
  induction l with
  | nil =>
    left
    exact List.mem_singleton.mp hp
  | cons q rest ih =>
    unfold upsertA at hp
    split at hp
    · rcases List.mem_cons.mp hp with h | h
      · exact Or.inl h
      · exact Or.inr (List.mem_cons_of_mem _ h)
    · rcases List.mem_cons.mp hp with h | h
      · exact Or.inr (h ▸ List.mem_cons_self _ _)
      · rcases ih h with h2 | h2
        · exact Or.inl h2
        · exact Or.inr (List.mem_cons_of_mem _ h2)

/-- C9 counterexample: `set_budget` performs no sign validation, so writing
amount -50 for "Food" stores the negative value -50. -/
theorem set_budget_negative_cex :
    lookupA "Food" (set_budget [] "Food" (some (-50))) = some (-50) ∧
    ((-50 : ℚ) < 0) := by
  constructor
  · rfl
  · norm_num

/-- C9 (amended): after any `set_budget` the budgets table holds at most one
amount per category — the written category's value is fully replaced (latest
write wins) and all other categories are untouched, and key uniqueness is
preserved; but stored amounts are only guaranteed non-negative when the
amounts actually written are non-negative, because `set_budget` stores the
given amount without any sign check. -/
theorem set_budget_spec (bs : List (String × ℚ)) (c : String) (amt : Option ℚ) :
    lookupA c (set_budget bs c amt) = some (amt.getD 0) ∧
    (∀ c2, c2 ≠ c → lookupA c2 (set_budget bs c amt) = lookupA c2 bs) ∧
    ((bs.map Prod.fst).Nodup → ((set_budget bs c amt).map Prod.fst).Nodup) ∧
    (0 ≤ amt.getD 0 → (∀ p ∈ bs, 0 ≤ p.2) →
      ∀ p ∈ set_budget bs c amt, 0 ≤ p.2) := by
  refine ⟨lookupA_upsertA_self c _ bs,
    fun c2 h => lookupA_upsertA_other c c2 _ bs h,
    nodup_keys_upsertA c _ bs,
    fun hamt hbs p hp => ?_⟩
  rcases mem_upsertA c _ bs p hp with h | h
  · rw [h]
    exact hamt
  · exact hbs p h

/-- C9 witness. -/
theorem set_budget_spec_witness :
    lookupA "Food" (set_budget [] "Food" (some 100)) = some 100 ∧
    (0 : ℚ) ≤ (some (100 : ℚ)).getD 0 ∧
    ∀ p ∈ set_budget [] "Food" (some (100 : ℚ)), 0 ≤ p.2 :=
  ⟨(set_budget_spec [] "Food" (some 100)).1, by norm_num,
   (set_budget_spec [] "Food" (some 100)).2.2.2 (by norm_num) (by simp)⟩
